import Mathlib

/-!
Verification of the splinter incremental-build executor against its
natural-language specification.  The definitions below are shallow
embeddings of the program: pure C++ functions become Lean functions on
`List Char` / `Int` / `Nat`, and the stateful plan/builder code becomes
explicit state passing.  Where an implementation file is absent from the
tree and only its header, tests or callers are present, the definition is
modelled from the specification text and marked as such in its doc
comment.
-/

set_option maxHeartbeats 1000000
set_option maxRecDepth 8192

namespace Splinter

/-! ## util.cc: ElideMiddle -/

/-- Embedding of `ElideMiddle` from `src/util.cc`.  The C++ switch returns
`""`, `"."`, `".."`, `"..."` for widths 0..3; otherwise, when the string is
longer than the width, it keeps the first and last `(width - 3) / 2`
characters around a `"..."` infix. -/
def ElideMiddle (str : List Char) (width : Nat) : List Char :=
  match width with
  | 0 => []
  | 1 => ['.']
  | 2 => ['.', '.']
  | 3 => ['.', '.', '.']
  | _ =>
    if str.length > width then
      let elideSize := (width - 3) / 2
      str.take elideSize ++ ['.', '.', '.'] ++ str.drop (str.length - elideSize)
    else
      str

/-! ## build.h: Plan counters and more_to_do -/

/-- The two counters kept by `Plan` (`src/build.h`): `wanted_edges_`
(total remaining wanted edges) and `command_edges_` (wanted edges that
have a real command, i.e. are not phony).  Both are C++ `int`. -/
structure PlanCounters where
  wanted_edges : Int
  command_edges : Int

/-- Embedding of `Plan::more_to_do` from `src/build.h` line 56:
`return wanted_edges_ > 0 && command_edges_ > 0;`. -/
def more_to_do (p : PlanCounters) : Bool :=
  decide (p.wanted_edges > 0) && decide (p.command_edges > 0)

/-- Modelled from the spec: `Plan::EdgeWanted` (the implementation file
`build.cc` is not in the tree).  The spec describes the counters as
"command_edges (wanted edges that have a real command, i.e. not phony),
wanted_edges (all wanted)", so wanting an edge increments `wanted_edges`
always and `command_edges` only when the edge is not phony. -/
def EdgeWanted (p : PlanCounters) (is_phony : Bool) : PlanCounters :=
  { wanted_edges := p.wanted_edges + 1,
    command_edges := if is_phony then p.command_edges else p.command_edges + 1 }

/-! ## Theorems for claim C10 -/

/-- C10: `ElideMiddle(s, w)` returns exactly `w` dots when `w ≤ 3`
(regardless of `s`), returns `s` unchanged when `4 ≤ w` and `s` fits, and
otherwise keeps the first and last `(w-3)/2` characters around `"..."`,
with result length never exceeding `w`. -/
theorem elideMiddle_spec (s : List Char) (w : Nat) :
    (w ≤ 3 → ElideMiddle s w = List.replicate w '.') ∧
    (4 ≤ w → s.length ≤ w → ElideMiddle s w = s) ∧
    (4 ≤ w → w < s.length →
      ElideMiddle s w =
        s.take ((w - 3) / 2) ++ ['.', '.', '.'] ++
          s.drop (s.length - (w - 3) / 2) ∧
      (ElideMiddle s w).length ≤ w) := by
  match w with
  | 0 => exact ⟨fun _ => rfl, fun h => absurd h (by omega), fun h => absurd h (by omega)⟩
  | 1 => exact ⟨fun _ => rfl, fun h => absurd h (by omega), fun h => absurd h (by omega)⟩
  | 2 => exact ⟨fun _ => rfl, fun h => absurd h (by omega), fun h => absurd h (by omega)⟩
  | 3 => exact ⟨fun _ => rfl, fun h => absurd h (by omega), fun h => absurd h (by omega)⟩
  | (n + 4) =>
    refine ⟨fun h => absurd h (by omega), fun _ hle => ?_, fun _ hgt => ?_⟩
    · simp only [ElideMiddle]
      rw [if_neg (by omega)]
    · have heq : ElideMiddle s (n + 4) =
          s.take ((n + 4 - 3) / 2) ++ ['.', '.', '.'] ++
            s.drop (s.length - (n + 4 - 3) / 2) := by
        simp only [ElideMiddle]
        rw [if_pos (by omega)]
      refine ⟨heq, ?_⟩
      rw [heq]
      have h1 : (s.take ((n + 4 - 3) / 2)).length = (n + 4 - 3) / 2 := by
        rw [List.length_take]
        omega
      have h2 : (s.drop (s.length - (n + 4 - 3) / 2)).length = (n + 4 - 3) / 2 := by
        rw [List.length_drop]
        omega
      simp only [List.length_append, h1, h2, List.length_cons, List.length_nil]
      omega

/-- Witness for C10: instantiate the elision branch at a concrete string
and width. -/
theorem elideMiddle_spec_witness :
    (ElideMiddle ("abcdefgh".toList) 5).length ≤ 5 :=
  ((elideMiddle_spec ("abcdefgh".toList) 5).2.2 (by decide) (by decide)).2

/-! ## Theorems for claim C9 -/

/-- C9 counterexample: the claim says `more_to_do()` is true iff
`wanted_edges > 0`, but a plan that wants exactly one phony edge has
`wanted_edges = 1 > 0` and `command_edges = 0`, so `more_to_do()` is
false. -/
theorem more_to_do_claim_counterexample :
    ¬ (more_to_do (EdgeWanted ⟨0, 0⟩ true) = true ↔
        (EdgeWanted ⟨0, 0⟩ true).wanted_edges > 0) := by
  decide

/-- C9 (amended): `Plan::more_to_do()` returns true iff `wanted_edges > 0`
and `command_edges > 0` (the source conjoins both counters, so a plan
whose only wanted edges are phony reports nothing more to do). -/
theorem more_to_do_iff (p : PlanCounters) :
    more_to_do p = true ↔ (p.wanted_edges > 0 ∧ p.command_edges > 0) := by
  simp [more_to_do]

/-! ## Dependency scan: edge output dirtiness (claim C3) -/

/-- A scanned input as the dependency scan sees it: its dirty flag,
whether stat found it missing, and its mtime. -/
structure InputState where
  dirty : Bool
  missing : Bool
  mtime : Int

/-- Modelled from the spec (Edge data model; graph.cc is not in the
tree): an edge's inputs are "partitioned into three contiguous regions:
explicit (contribute to command-line expansion), implicit (affect
dirtiness only), order-only (affect scheduling order only, never
dirtiness)". -/
structure EdgeInputs where
  explicitIns : List InputState
  implicitIns : List InputState
  orderOnlyIns : List InputState

/-- The non-order-only inputs of an edge: the explicit and implicit
regions. -/
def nonOrderOnly (e : EdgeInputs) : List InputState :=
  e.explicitIns ++ e.implicitIns

/-- Whether some input in the list is dirty or missing. -/
def anyDirtyOrMissing (l : List InputState) : Bool :=
  l.any fun i => i.dirty || i.missing

/-- Modelled from the spec: the dirtiness computation of
`RecomputeDirty` step 4 (graph.cc is not in the tree): "If any explicit
or implicit input is dirty or missing, mark all the edge's outputs
dirty.  Else, for each output node: stat it; if the output is missing,
dirty; if any non-order-only input's mtime is newer than the output's
mtime, dirty; if the recorded command hash in the build log differs from
the current command's hash, dirty."  `outMtime = none` means the output
is missing; `hashMatches` is the build-log command-hash comparison. -/
def outputDirty (e : EdgeInputs) (outMtime : Option Int) (hashMatches : Bool) : Bool :=
  anyDirtyOrMissing (nonOrderOnly e) ||
    match outMtime with
    | none => true
    | some m => ((nonOrderOnly e).any fun i => i.mtime > m) || !hashMatches

/-- Modelled from the spec: `Plan::AddTarget` (build.cc is not in the
tree): "If the node is not dirty, return success without change."  A
dirty target inserts its in-edge into want, incrementing the counters. -/
def AddTargetCounters (p : PlanCounters) (target_dirty : Bool) (is_phony : Bool) :
    PlanCounters :=
  if target_dirty then EdgeWanted p is_phony else p

/-! ## Theorems for claim C3 -/

/-- C3: order-only inputs never influence the edge's output dirtiness
(the computation is invariant under replacing the whole order-only
region, hence a dirty, missing or newer order-only input cannot dirty
the outputs); any dirty or missing explicit or implicit input does dirty
the outputs; and in the S4 scenario (only changed input since the last
build is order-only) the output is clean, the plan stays empty, and no
command runs. -/
theorem order_only_never_dirties (expl impl oo oo2 : List InputState)
    (outM : Option Int) (hm : Bool) :
    (outputDirty ⟨expl, impl, oo⟩ outM hm = outputDirty ⟨expl, impl, oo2⟩ outM hm) ∧
    (∀ i ∈ expl ++ impl, (i.dirty || i.missing) = true →
      outputDirty ⟨expl, impl, oo⟩ outM hm = true) ∧
    (outputDirty ⟨[⟨false, false, 0⟩], [], [⟨false, false, 5⟩]⟩ (some 1) true = false ∧
      more_to_do (AddTargetCounters ⟨0, 0⟩ false false) = false) := by
  refine ⟨rfl, fun i hi hdm => ?_, ⟨rfl, rfl⟩⟩
  simp only [outputDirty, anyDirtyOrMissing, nonOrderOnly, Bool.or_eq_true, List.any_eq_true]
  exact Or.inl ⟨i, hi, by simpa using hdm⟩

/-- Witness for C3: a dirty explicit input dirties the output even with a
clean order-only input present. -/
theorem order_only_never_dirties_witness :
    outputDirty ⟨[⟨true, false, 0⟩], [], [⟨false, false, 0⟩]⟩ (some 10) true = true :=
  (order_only_never_dirties [⟨true, false, 0⟩] [] [⟨false, false, 0⟩] []
      (some 10) true).2.1 ⟨true, false, 0⟩
    (List.mem_append_left _ (List.mem_singleton_self _)) rfl

/-! ## Dyndep loading at scan time (claim C8) -/

/-- The message produced by C's strerror for ENOENT, which the disk
interface surfaces when a file to be read does not exist. -/
def strerrorENOENT : String := "No such file or directory"

/-- Outcome of attempting to load an edge's dyndep file during
dependency scanning. -/
inductive DyndepLoadResult where
  | loaded
  | deferred
  | error (msg : String)

/-- Modelled from the spec: dyndep loading in `RecomputeDirty` step 1
(graph.cc and the dyndep loader are not in the tree): "If the edge has a
dyndep input whose file is already on disk, load the dyndep ... If the
dyndep file is missing and there is no rule to produce it, error."  The
in-tree test `BuildTest.DyndepMissingAndNoRule` pins the message for a
missing file to <loading 'dd': No such file or directory>: the loader
prefixes <loading 'PATH': > onto the file reader's error string, which
for a missing file is strerror(ENOENT). -/
def loadDyndepAtScan (path : String) (onDisk : Bool) (hasInEdge : Bool) :
    DyndepLoadResult :=
  if onDisk then .loaded
  else if hasInEdge then .deferred
  else .error ("loading '" ++ path ++ "': " ++ strerrorENOENT)

/-! ## Theorems for claim C8 -/

/-- C8 counterexample: for the dyndep path `dd`, missing on disk with no
producing rule, the scan's error is not the claimed
<loading 'dd': no such file>. -/
theorem dyndep_missing_message_counterexample :
    loadDyndepAtScan "dd" false false ≠
      DyndepLoadResult.error "loading 'dd': no such file" := by
  intro h
  exact absurd (DyndepLoadResult.error.inj h) (by decide)

/-- C8 (amended): when an edge's dyndep file is not on disk and no rule
produces it, the scan fails and the error message is
<loading 'X': No such file or directory> where X is the dyndep path. -/
theorem dyndep_missing_and_no_rule (path : String) :
    loadDyndepAtScan path false false =
      DyndepLoadResult.error ("loading '" ++ path ++ "': No such file or directory") := by
  have hassoc : ∀ a b c : String, a ++ b ++ c = a ++ (b ++ c) := by
    intro a b c
    cases a
    cases b
    cases c
    exact congrArg String.mk (List.append_assoc _ _ _)
  show DyndepLoadResult.error ("loading '" ++ path ++ "': " ++ strerrorENOENT) = _
  rw [hassoc ("loading '" ++ path) "': " strerrorENOENT]
  rfl

/-! ## Builder driver loop: failure handling (claim C4) -/

/-- Modelled from the spec: the `Builder::Build` driver loop restricted
to sequential execution (`build.cc` is not in the tree; the default
`BuildConfig` has `parallelism = 1`).  `fa` is the remaining
`failures_allowed`, `failed` the number of failures seen so far, `ready`
the queue of ready command edges (each entry records whether its command
exits successfully), `blocked` the number of wanted edges whose inputs
are outputs of failed edges (they never become ready), and `ran` the
number of commands executed so far.  Per the spec: a non-zero exit
decrements `failures_allowed`; when it is exhausted the build stops
submitting new work and stops with "subcommand failed" (singular if one
failure) or "subcommands failed"; if the ready set empties while wanted
edges remain and at least one failure has occurred, the build reports
"cannot make progress due to previous errors".  Returns the total number
of commands executed and the error string (empty on success). -/
def buildLoop : Nat → Nat → List Bool → Nat → Nat → Nat × String
  | 0, failed, _, _, ran =>
    (ran, if failed ≤ 1 then "subcommand failed" else "subcommands failed")
  | _ + 1, failed, [], blocked, ran =>
    if blocked > 0 then
      if failed > 0 then (ran, "cannot make progress due to previous errors")
      else (ran, "stuck [this is a bug]")
    else (ran, "")
  | fa + 1, failed, true :: rest, blocked, ran =>
    buildLoop (fa + 1) failed rest blocked (ran + 1)
  | fa + 1, failed, false :: rest, blocked, ran =>
    buildLoop fa (failed + 1) rest blocked (ran + 1)

/-- Draining a run of `k` failing commands with `failures_allowed = k`
runs exactly `k` commands and stops with the exhaustion message. -/
theorem buildLoop_drain (k : Nat) : ∀ (failed : Nat) (rest : List Bool) (blocked ran : Nat),
    buildLoop k failed (List.replicate k false ++ rest) blocked ran =
      (ran + k, if failed + k ≤ 1 then "subcommand failed" else "subcommands failed") := by
  induction k with
  | zero =>
    intro failed rest blocked ran
    simp [buildLoop]
  | succ n ih =>
    intro failed rest blocked ran
    rw [List.replicate_succ, List.cons_append]
    show buildLoop n (failed + 1) (List.replicate n false ++ rest) blocked (ran + 1) = _
    rw [ih (failed + 1) rest blocked (ran + 1)]
    rw [show ran + 1 + n = ran + (n + 1) from by omega,
        show failed + 1 + n = failed + (n + 1) from by omega]

/-! ## Theorems for claim C4 -/

/-- C4: once `failures_allowed` is exhausted no further command is
submitted; each failing command decrements `failures_allowed` and is
counted; with `failures_allowed = k` and at least `k` independent
failing edges exactly `k` commands run and the build fails with
"subcommand failed" when `k = 1` (exactly one failure) and
"subcommands failed" otherwise; and if the ready set empties while
wanted edges remain after at least one failure, the build fails with
"cannot make progress due to previous errors". -/
theorem build_failure_semantics (k : Nat) (hk : 0 < k) :
    (∀ failed ready blocked ran,
      buildLoop 0 failed ready blocked ran =
        (ran, if failed ≤ 1 then "subcommand failed" else "subcommands failed")) ∧
    (∀ fa failed rest blocked ran, 0 < fa →
      buildLoop fa failed (false :: rest) blocked ran =
        buildLoop (fa - 1) (failed + 1) rest blocked (ran + 1)) ∧
    (∀ rest blocked,
      buildLoop k 0 (List.replicate k false ++ rest) blocked 0 =
        (k, if k = 1 then "subcommand failed" else "subcommands failed")) ∧
    (∀ fa failed blocked ran, 0 < fa → 0 < failed → 0 < blocked →
      buildLoop fa failed [] blocked ran =
        (ran, "cannot make progress due to previous errors")) := by
  refine ⟨fun failed ready blocked ran => by simp [buildLoop],
          fun fa failed rest blocked ran hfa => ?_,
          fun rest blocked => ?_,
          fun fa failed blocked ran hfa hfailed hblocked => ?_⟩
  · match fa, hfa with
    | n + 1, _ => rfl
  · rw [buildLoop_drain k 0 rest blocked 0, Nat.zero_add]
    by_cases h : k = 1
    · rw [if_pos (by omega), if_pos h]
    · rw [if_neg (by omega), if_neg h]
  · match fa, hfa with
    | n + 1, _ =>
      show (if blocked > 0 then _ else _) = _
      rw [if_pos hblocked, if_pos hfailed]

/-- Witness for C4: the single-failing-edge scenario of BuildTest.Fail
(failures_allowed = 1) runs one command and fails with the singular
message. -/
theorem build_failure_semantics_witness :
    buildLoop 1 0 (List.replicate 1 false ++ []) 0 0 = (1, "subcommand failed") := by
  rw [(build_failure_semantics 1 (by decide)).2.2.1 [] 0]
  decide

/-! ## Interruption and exit codes (claim C5) -/

/-- The status a command wait can report. -/
inductive WaitStatus where
  | success
  | failed
  | interrupted

/-- Modelled from the spec: the builder's reaction to a wait result
(`build.cc` is not in the tree): "On SIGINT/Ctrl-C the runner's wait
returns Interrupted.  The builder then: stops submitting new work; ...
surfaces interrupted by user".  `some (ok, err)` means the build returns
immediately with that outcome; `none` means the loop continues. -/
def buildOutcomeOnWait : WaitStatus → Option (Bool × String)
  | .interrupted => some (false, "interrupted by user")
  | _ => none

/-- Whether the first list is an initial segment of the second
(character comparison, as `std::string::find` does position by
position). -/
def beginsWith : List Char → List Char → Bool
  | [], _ => true
  | _ :: _, [] => false
  | a :: as, b :: bs => a == b && beginsWith as bs

/-- Whether `needle` occurs contiguously inside `hay`; this is
`hay.find(needle) != npos` of C++. -/
def containsSub (needle : List Char) : List Char → Bool
  | [] => needle.isEmpty
  | c :: rest => beginsWith needle (c :: rest) || containsSub needle rest

/-- Embedding of the exit-code logic of `NinjaMain::RunBuild`
(`src/ninja.cc`): return 0 when `Build` succeeds; otherwise 2 when the
error string contains "interrupted by user" (the C++ does
`err.find("interrupted by user") != npos`), else 1. -/
def runBuildExitCode (buildOk : Bool) (err : String) : Nat :=
  if buildOk then 0
  else if containsSub ("interrupted by user".toList) err.toList then 2
  else 1

/-- An output of an edge that was active when the build was interrupted:
its pre-run recorded mtime and its current on-disk mtime. -/
structure ActiveOutput where
  path : String
  preMtime : Int
  diskMtime : Int

/-- Modelled from the spec: `Builder::Cleanup` after interruption
(`build.cc` is not in the tree): the builder "calls GetActiveEdges and,
for each, stats each output and deletes those whose mtime advanced past
pre-run (touched outputs) while keeping untouched ones".  Returns the
surviving outputs. -/
def cleanupInterrupted (outs : List ActiveOutput) : List ActiveOutput :=
  outs.filter fun o => decide (o.diskMtime ≤ o.preMtime)

/-! ## Theorems for claim C5 -/

/-- C5: an Interrupted wait makes the build fail with the error
"interrupted by user"; the process exit code is then 2 (0 on success and
1 on other failure); and cleanup retains exactly those outputs of active
edges whose on-disk mtime did not advance past the pre-run value. -/
theorem interrupt_semantics :
    (buildOutcomeOnWait .interrupted = some (false, "interrupted by user")) ∧
    (runBuildExitCode false "interrupted by user" = 2) ∧
    (runBuildExitCode true "" = 0) ∧
    (∀ err : String,
      containsSub ("interrupted by user".toList) err.toList = false →
      runBuildExitCode false err = 1) ∧
    (∀ (outs : List ActiveOutput) (o : ActiveOutput), o ∈ outs →
      (o ∈ cleanupInterrupted outs ↔ o.diskMtime ≤ o.preMtime)) := by
  refine ⟨rfl, by decide, rfl, fun err herr => ?_, fun outs o ho => ?_⟩
  · show (if containsSub ("interrupted by user".toList) err.toList then 2 else 1) = 1
    rw [herr]
    simp
  · simp [cleanupInterrupted, List.mem_filter, ho]

/-- Witness for C5: a non-interrupt failure exits 1, and cleanup keeps
the untouched output while deleting the touched one. -/
theorem interrupt_semantics_witness :
    runBuildExitCode false "subcommand failed" = 1 ∧
    (⟨"out1", 3, 3⟩ ∈
      cleanupInterrupted [⟨"out1", 3, 3⟩, ⟨"out2", 3, 7⟩] ↔
      (3 : Int) ≤ 3) :=
  ⟨interrupt_semantics.2.2.2.1 "subcommand failed" (by decide),
   interrupt_semantics.2.2.2.2 [⟨"out1", 3, 3⟩, ⟨"out2", 3, 7⟩]
     ⟨"out1", 3, 3⟩ (List.mem_cons_self _ _)⟩

/-! ## Build-log command hash (claim C6) -/

/-- The FNV-1a 64-bit offset basis. -/
def fnvOffset : Nat := 0xcbf29ce484222325

/-- The FNV-1a 64-bit prime. -/
def fnvPrime : Nat := 0x100000001b3

/-- 2 ^ 64, the modulus of 64-bit arithmetic. -/
def two64 : Nat := 18446744073709551616

/-- Modelled from the spec: the build log's command fingerprint is "a
stable 64-bit hash of the expanded command string" (`build_log.cc` is
not in the tree); instantiated here as FNV-1a 64, with every step
reduced mod 2^64. -/
def hash64 (l : List Char) : Nat :=
  l.foldl (fun h c => ((h ^^^ c.toNat) * fnvPrime) % two64) fnvOffset

/-- Modelled from the spec and the in-tree test: the string the command
hash is computed over.  "The rspfile content, if any, is appended to the
command string before hashing"; the in-tree test
`BuildWithLogTest.RspFileCmdLineChange` pins the appended form to
`command ++ ";rspfile=" ++ content` by asserting the hashed string
"cat out.rsp > out;rspfile=Original very long command". -/
def commandWithRsp (cmd rsp : List Char) : List Char :=
  if rsp.isEmpty then cmd else cmd ++ ";rspfile=".toList ++ rsp

/-- The command hash recorded in and compared against the build log. -/
def hashCommand (cmd rsp : List Char) : Nat :=
  hash64 (commandWithRsp cmd rsp)

/-- Modelled from the spec: the build-log comparison that forces a
rebuild: an edge is dirty when "the recorded command hash in the build
log differs from the current command's hash". -/
def hashForcesRebuild (recorded : Nat) (cmd rsp : List Char) : Bool :=
  recorded != hashCommand cmd rsp

/-- The hash always lands in the 64-bit range. -/
theorem hash64_lt (l : List Char) : hash64 l < two64 := by
  have h : ∀ (l : List Char) (acc : Nat), acc < two64 →
      l.foldl (fun h c => ((h ^^^ c.toNat) * fnvPrime) % two64) acc < two64 := by
    intro l
    induction l with
    | nil => intro acc hacc; exact hacc
    | cons c rest ih =>
      intro acc _
      exact ih _ (Nat.mod_lt _ (by decide))
  exact h l fnvOffset (by decide)

/-! ## Theorems for claim C6 -/

/-- C6 counterexample: with a 64-bit hash over unboundedly many possible
rspfile contents, it cannot be that changing only the rspfile content
always changes the hash comparison: by pigeonhole two distinct contents
collide. -/
theorem rspfile_hash_counterexample :
    ¬ (∀ cmd rsp1 rsp2 : List Char, rsp1 ≠ rsp2 →
        hashCommand cmd rsp1 ≠ hashCommand cmd rsp2) := by
  intro h
  have hlt : ∀ n : Nat, hashCommand [] (List.replicate (n + 1) 'a') < two64 :=
    fun n => hash64_lt _
  obtain ⟨x, y, hxy, heq⟩ :=
    Finite.exists_ne_map_eq_of_infinite
      (fun n : Nat => (⟨hashCommand [] (List.replicate (n + 1) 'a'), hlt n⟩ :
        Fin two64))
  have hne : List.replicate (x + 1) 'a' ≠ List.replicate (y + 1) 'a' := by
    intro hcontra
    have := congrArg List.length hcontra
    simp at this
    omega
  exact h [] _ _ hne (congrArg Fin.val heq)

/-- C6 (amended): the command hash is a stable function of the expanded
command and rspfile content; the rspfile content is injectively part of
the hashed string, so changing it always changes the input to the hash
and, at the in-tree test's concrete contents, it changes the hash value;
and any change to the recorded hash (in particular the test's increment,
in 64-bit arithmetic) makes the comparison differ and forces the edge to
rebuild. -/
theorem command_hash_semantics :
    (∀ cmd1 cmd2 rsp1 rsp2 : List Char, cmd1 = cmd2 → rsp1 = rsp2 →
      hashCommand cmd1 rsp1 = hashCommand cmd2 rsp2) ∧
    (∀ cmd rsp1 rsp2 : List Char, rsp1.isEmpty = false → rsp2.isEmpty = false →
      rsp1 ≠ rsp2 → commandWithRsp cmd rsp1 ≠ commandWithRsp cmd rsp2) ∧
    (∀ (recorded : Nat) (cmd rsp : List Char), recorded ≠ hashCommand cmd rsp →
      hashForcesRebuild recorded cmd rsp = true) ∧
    (hashCommand ("cat out.rsp > out".toList) ("Original very long command".toList) ≠
      hashCommand ("cat out.rsp > out".toList) ("Another very long command".toList)) ∧
    (∀ cmd rsp : List Char,
      hashForcesRebuild ((hashCommand cmd rsp + 1) % two64) cmd rsp = true) := by
  refine ⟨fun cmd1 cmd2 rsp1 rsp2 hc hr => by rw [hc, hr],
          fun cmd rsp1 rsp2 h1 h2 hne hcontra => ?_,
          fun recorded cmd rsp hne => ?_,
          by decide,
          fun cmd rsp => ?_⟩
  · simp only [commandWithRsp, h1, h2, if_false, Bool.false_eq_true] at hcontra
    rw [List.append_assoc, List.append_assoc] at hcontra
    exact hne (List.append_cancel_left (List.append_cancel_left hcontra))
  · simpa [hashForcesRebuild] using hne
  · have hlt : hashCommand cmd rsp < two64 := hash64_lt _
    have hne : (hashCommand cmd rsp + 1) % two64 ≠ hashCommand cmd rsp := by
      rcases Nat.lt_or_ge (hashCommand cmd rsp + 1) two64 with hcase | hcase
      · rw [Nat.mod_eq_of_lt hcase]
        omega
      · have hev : hashCommand cmd rsp + 1 = two64 := by
          simp only [two64] at hlt hcase ⊢
          omega
        rw [hev, Nat.mod_self]
        simp only [two64] at hev
        omega
    simpa [hashForcesRebuild] using hne

/-- Witness for C6: a recorded hash of 0 differs from the hash of a
concrete command and forces a rebuild. -/
theorem command_hash_semantics_witness :
    hashForcesRebuild 0 ("cc foo.c".toList) [] = true :=
  command_hash_semantics.2.2.1 0 ("cc foo.c".toList) [] (by decide)

/-! ## Pool admission (claim C2) -/

/-- An edge as the pool scheduler sees it: an identifier and whether it
is bound to the bounded pool under scrutiny; `bound = false` models an
empty pool binding (no pool constraint beyond global parallelism). -/
structure PEdge where
  id : Nat
  bound : Bool
deriving DecidableEq

/-- Scheduler state for one pool: the pool's depth (`≤ 0` means
unlimited), its accounted `current_use`, the plan's ready queue, the
pool's delayed queue, and the edges currently scheduled (`ToFinish`). -/
structure PoolState where
  depth : Int
  currentUse : Nat
  ready : List PEdge
  delayed : List PEdge
  running : List PEdge

/-- The number of edges in a list that are bound to the pool. -/
def boundCount (l : List PEdge) : Nat :=
  l.countP fun e => e.bound

/-- Modelled from the spec: pool admission (`build.cc` / `graph.cc` are
not in the tree): "A pool with depth d permits at most d concurrent
edges"; an edge must be delayed when it is bound to a bounded pool that
is at capacity. -/
def shouldDelay (depth : Int) (cu : Nat) (e : PEdge) : Bool :=
  e.bound && decide (0 < depth) && decide (depth ≤ (cu : Int))

/-- Worker for `FindWork`, scanning the ready queue front to back: each
edge that must be delayed moves to the back of the delayed queue, until
an admissible edge is found and returned.  Because the accounted use
does not change while edges are only being delayed, the scan is the
`takeWhile` / `dropWhile` split of the ready queue at the first
admissible edge.  The result is the returned edge (if any) and the
updated use count, ready, delayed and running lists.  The step-by-step
behaviour is recovered by `findWorkGo_nil`, `findWorkGo_cons_delay` and
`findWorkGo_cons_pick` below. -/
def findWorkGo (depth : Int) (cu : Nat) (ready delayed running : List PEdge) :
    Option PEdge × Nat × List PEdge × List PEdge × List PEdge :=
  match ready.dropWhile (shouldDelay depth cu) with
  | [] => (none, cu, [], delayed ++ ready.takeWhile (shouldDelay depth cu), running)
  | e :: rest =>
    (some e, cu + (if e.bound then 1 else 0), rest,
      delayed ++ ready.takeWhile (shouldDelay depth cu), e :: running)

/-- An empty ready queue yields no work. -/
theorem findWorkGo_nil (depth : Int) (cu : Nat) (delayed running : List PEdge) :
    findWorkGo depth cu [] delayed running = (none, cu, [], delayed, running) := by
  simp [findWorkGo]

/-- A ready edge whose pool is at capacity is retained at the back of
the delayed queue and the scan continues. -/
theorem findWorkGo_cons_delay (depth : Int) (cu : Nat) (e : PEdge)
    (rest delayed running : List PEdge) (hd : shouldDelay depth cu e = true) :
    findWorkGo depth cu (e :: rest) delayed running =
      findWorkGo depth cu rest (delayed ++ [e]) running := by
  unfold findWorkGo
  rw [List.dropWhile_cons, List.takeWhile_cons, if_pos hd, if_pos hd]
  cases rest.dropWhile (shouldDelay depth cu) <;>
    simp [List.append_assoc]

/-- A ready edge whose pool has spare capacity is returned, with one use
accounted when it is bound. -/
theorem findWorkGo_cons_pick (depth : Int) (cu : Nat) (e : PEdge)
    (rest delayed running : List PEdge) (hd : shouldDelay depth cu e = false) :
    findWorkGo depth cu (e :: rest) delayed running =
      (some e, cu + (if e.bound then 1 else 0), rest, delayed, e :: running) := by
  unfold findWorkGo
  rw [List.dropWhile_cons, List.takeWhile_cons, if_neg (by simp [hd]),
      if_neg (by simp [hd])]
  simp

/-- Modelled from the spec: `Plan::FindWork`: "Pop an arbitrary edge
from the ready set.  If the edge's pool has spare capacity, account one
use against the pool, transition the edge to ToFinish, and return it.
If the pool is full, retain the edge in a pool-local delayed queue; the
next pool release will re-promote it to ready." -/
def FindWork (s : PoolState) : Option PEdge × PoolState :=
  let r := findWorkGo s.depth s.currentUse s.ready s.delayed s.running
  (r.1, ⟨s.depth, r.2.1, r.2.2.1, r.2.2.2.1, r.2.2.2.2⟩)

/-- Modelled from the spec: `Plan::EdgeFinished`: "Release the pool slot
and promote any delayed edge"; "a slot release promotes exactly one
delayed edge back to ready". -/
def EdgeFinished (s : PoolState) (e : PEdge) : PoolState :=
  let s1 : PoolState :=
    { s with running := s.running.erase e,
             currentUse := s.currentUse - (if e.bound then 1 else 0) }
  if e.bound then
    match s1.delayed with
    | [] => s1
    | d :: ds => { s1 with delayed := ds, ready := s1.ready ++ [d] }
  else s1

/-- One scheduler transition: pull work from the ready queue, or finish
a scheduled edge. -/
inductive PoolStep : PoolState → PoolState → Prop
  | find (s : PoolState) : PoolStep s (FindWork s).2
  | finish (s : PoolState) (e : PEdge) (h : e ∈ s.running) :
      PoolStep s (EdgeFinished s e)

/-- States reachable from an idle plan: nothing scheduled, no use
accounted, nothing delayed, any depth and ready queue. -/
inductive PoolReachable : PoolState → Prop
  | init (depth : Int) (ready : List PEdge) :
      PoolReachable ⟨depth, 0, ready, [], []⟩
  | step {s t : PoolState} : PoolReachable s → PoolStep s t → PoolReachable t

/-- The inductive invariant: the accounted use equals the number of
bound edges scheduled, respects the depth when bounded, and only bound
edges ever sit in the delayed queue. -/
def PoolInv (s : PoolState) : Prop :=
  s.currentUse = boundCount s.running ∧
  (0 < s.depth → (s.currentUse : Int) ≤ s.depth) ∧
  (∀ e ∈ s.delayed, e.bound = true)

theorem findWorkGo_inv (depth : Int) :
    ∀ (ready : List PEdge) (cu : Nat) (delayed running : List PEdge),
    cu = boundCount running →
    (0 < depth → (cu : Int) ≤ depth) →
    (∀ e ∈ delayed, e.bound = true) →
    (findWorkGo depth cu ready delayed running).2.1 =
        boundCount (findWorkGo depth cu ready delayed running).2.2.2.2 ∧
      (0 < depth → ((findWorkGo depth cu ready delayed running).2.1 : Int) ≤ depth) ∧
      (∀ e ∈ (findWorkGo depth cu ready delayed running).2.2.2.1, e.bound = true) := by
  intro ready
  induction ready with
  | nil =>
    intro cu delayed running h1 h2 h3
    rw [findWorkGo_nil]
    exact ⟨h1, h2, h3⟩
  | cons e rest ih =>
    intro cu delayed running h1 h2 h3
    by_cases hd : shouldDelay depth cu e = true
    · rw [findWorkGo_cons_delay depth cu e rest delayed running hd]
      refine ih cu (delayed ++ [e]) running h1 h2 ?_
      intro x hx
      rcases List.mem_append.mp hx with hx | hx
      · exact h3 x hx
      · have hb : e.bound = true := by
          have := hd
          simp only [shouldDelay, Bool.and_eq_true] at this
          exact this.1.1
        simpa [List.mem_singleton.mp hx] using hb
    · rw [findWorkGo_cons_pick depth cu e rest delayed running (Bool.eq_false_iff.mpr hd)]
      refine ⟨?_, ?_, h3⟩
      · simp only [boundCount, List.countP_cons, h1]
      · intro hdep
        simp only [shouldDelay, Bool.and_eq_true, decide_eq_true_eq] at hd
        by_cases hb : e.bound = true
        · have hlt : (cu : Int) < depth := by
            by_contra hge
            exact hd ⟨⟨hb, by simpa using hdep⟩, by omega⟩
          simp only [hb, if_true]
          push_cast
          omega
        · simp only [hb, if_false]
          simpa using h2 hdep

theorem findWork_inv (s : PoolState) (h : PoolInv s) : PoolInv (FindWork s).2 := by
  obtain ⟨h1, h2, h3⟩ := h
  exact findWorkGo_inv s.depth s.ready s.currentUse s.delayed s.running h1 h2 h3

theorem edgeFinished_inv (s : PoolState) (e : PEdge) (he : e ∈ s.running)
    (h : PoolInv s) : PoolInv (EdgeFinished s e) := by
  obtain ⟨h1, h2, h3⟩ := h
  have hperm : s.running.Perm (e :: s.running.erase e) := List.perm_cons_erase he
  have hcount : boundCount s.running =
      boundCount (s.running.erase e) + (if e.bound then 1 else 0) := by
    have := hperm.countP_eq fun x => x.bound
    simp only [boundCount, this, List.countP_cons]
  have hcore : (EdgeFinished s e).currentUse = s.currentUse - (if e.bound then 1 else 0) ∧
      (EdgeFinished s e).running = s.running.erase e ∧
      (EdgeFinished s e).depth = s.depth ∧
      (∀ x ∈ (EdgeFinished s e).delayed, x.bound = true) := by
    by_cases hb : e.bound = true
    · simp only [EdgeFinished, hb, if_true]
      match hdel : s.delayed with
      | [] => exact ⟨rfl, rfl, rfl, by simp⟩
      | d :: ds =>
        refine ⟨rfl, rfl, rfl, ?_⟩
        intro x hx
        exact h3 x (by simp [hdel, List.mem_cons, hx])
    · simp only [EdgeFinished, hb, if_false]
      exact ⟨rfl, rfl, rfl, h3⟩
  obtain ⟨hc1, hc2, hc3, hc4⟩ := hcore
  refine ⟨?_, ?_, hc4⟩
  · rw [hc1, hc2, h1, hcount]
    omega
  · intro hdep
    rw [hc3] at hdep
    rw [hc1]
    have := h2 hdep
    have hle : s.currentUse - (if e.bound then 1 else 0) ≤ s.currentUse := Nat.sub_le _ _
    omega

/-- Every reachable scheduler state satisfies the pool invariant. -/
theorem poolReachable_inv (s : PoolState) (h : PoolReachable s) : PoolInv s := by
  induction h with
  | init depth ready =>
    refine ⟨rfl, fun hdep => ?_, by simp⟩
    simpa using hdep.le
  | step _ hstep ih =>
    cases hstep with
    | find => exact findWork_inv _ ih
    | finish e he => exact edgeFinished_inv _ e he ih

/-! ## Theorems for claim C2 -/

/-- C2: in every reachable scheduler state of a pool with depth d > 0,
at most d edges bound to the pool are simultaneously scheduled; only
bound edges are ever held in the delayed queue (an empty pool binding
imposes no pool constraint, and an unbound edge at the head of the ready
queue is returned unconditionally); and finishing an edge promotes at
most one delayed edge back to ready. -/
theorem pool_depth_invariant (s : PoolState) (h : PoolReachable s) :
    (0 < s.depth → (boundCount s.running : Int) ≤ s.depth) ∧
    (∀ e ∈ s.delayed, e.bound = true) ∧
    (∀ e rest, s.ready = e :: rest → e.bound = false → (FindWork s).1 = some e) ∧
    (∀ e : PEdge, (EdgeFinished s e).ready.length ≤ s.ready.length + 1) := by
  obtain ⟨h1, h2, h3⟩ := poolReachable_inv s h
  refine ⟨fun hdep => h1 ▸ h2 hdep, h3, fun e rest hready hb => ?_, fun e => ?_⟩
  · have hd : shouldDelay s.depth s.currentUse e = false := by
      simp [shouldDelay, hb]
    show (findWorkGo s.depth s.currentUse s.ready s.delayed s.running).1 = some e
    rw [hready, findWorkGo_cons_pick _ _ _ _ _ _ hd]
  · by_cases hb : e.bound = true
    · simp only [EdgeFinished, hb, if_true]
      match hdel : s.delayed with
      | [] => simp
      | d :: ds => simp
    · simp only [EdgeFinished, hb, if_false]
      simp

/-- Witness for C2: the invariant instantiated at a freshly initialised
plan with depth 1 and a single unbound ready edge. -/
theorem pool_depth_invariant_witness :
    (boundCount (PoolState.mk 1 0 [⟨0, false⟩] [] []).running : Int) ≤ 1 :=
  (pool_depth_invariant _ (PoolReachable.init 1 [⟨0, false⟩])).1 (by decide)

/-! ## Restat semantics (claims C1 and C7) -/

/-- A build edge of the restat model: rule restat flag, whether its
command actually modifies its outputs when run, and input/output node
ids. -/
structure REdge where
  id : Nat
  restat : Bool
  touches : Bool
  ins : List Nat
  outs : List Nat

/-- Builder state for the restat model: virtual filesystem (node id to
mtime), a clock used for newly written files, wanted-edge ids (ToStart),
dirty node ids, and the count of commands executed. -/
structure RState where
  fs : List (Nat × Int)
  clock : Int
  want : List Nat
  dirty : List Nat
  commands : Nat

/-- mtime lookup in the virtual filesystem (0 when absent). -/
def mt (fs : List (Nat × Int)) (n : Nat) : Int :=
  ((fs.find? fun p => p.1 == n).map Prod.snd).getD 0

/-- Look an edge up by id. -/
def findEdge (g : List REdge) (eid : Nat) : Option REdge :=
  g.find? fun ed => ed.id == eid

/-- Modelled from the spec: the restat cancellation in
`Plan::EdgeFinished` (`build.cc` is not in the tree): when a restat
edge's outputs are unchanged, "this cancels dependents that have no
other dirty inputs (the plan removes them from want)".  A wanted edge is
removed exactly when it consumes one of the finished edge's outputs and,
with those outputs now clean, none of its inputs is dirty. -/
def cancelDependents (g : List REdge) (want : List Nat) (dirtyAfter : List Nat)
    (outs : List Nat) : List Nat :=
  want.filter fun eid =>
    match findEdge g eid with
    | none => true
    | some ed =>
      !((ed.ins.any fun n => outs.contains n) &&
        !(ed.ins.any fun n => dirtyAfter.contains n))

/-- Modelled from the spec: running one edge's command and finishing it
(`Builder::FinishCommand` and `Plan::EdgeFinished`; `build.cc` is not in
the tree).  The command updates the outputs' mtimes only when it touches
them; the builder then re-stats each output and compares with the
pre-run mtime; on success the outputs are marked clean; for a restat
edge with every output mtime unchanged, dependents wanted solely because
of these outputs are cancelled. -/
def executeEdge (g : List REdge) (s : RState) (e : REdge) : RState :=
  let fs2 := if e.touches
    then s.fs.map fun p => if e.outs.contains p.1 then (p.1, s.clock) else p
    else s.fs
  let unchanged := e.outs.all fun n => mt fs2 n == mt s.fs n
  let dirty2 := s.dirty.filter fun n => !e.outs.contains n
  let want2 := s.want.erase e.id
  let want3 := if e.restat && unchanged
    then cancelDependents g want2 dirty2 e.outs
    else want2
  { fs := fs2, clock := s.clock + 1, want := want3, dirty := dirty2,
    commands := s.commands + 1 }

/-- The first wanted edge whose inputs are all clean (ready for
execution). -/
def findReady (g : List REdge) (s : RState) : Option REdge :=
  (s.want.find? fun eid =>
      match findEdge g eid with
      | none => false
      | some ed => ed.ins.all fun n => !s.dirty.contains n).bind
    (findEdge g)

/-- The builder loop of the restat model: repeatedly run a ready wanted
edge (fuel-bounded). -/
def runBuild (g : List REdge) : Nat → RState → RState
  | 0, s => s
  | fuel + 1, s =>
    match findReady g s with
    | none => s
    | some e => runBuild g fuel (executeEdge g s e)

/-- The RestatTest chain: `in -> out1 -> out2 -> out3` with node ids 0,
10, 20, 30; `cc` (edge 1, restat, touches out1), `true` (edge 2, restat,
does not touch out2), `cat` (edge 3, touches out3). -/
def restatChain : List REdge :=
  [⟨1, true, true, [0], [10]⟩,
   ⟨2, true, false, [10], [20]⟩,
   ⟨3, false, true, [20], [30]⟩]

/-- The pre-state of the incremental rebuild: `in` was touched (mtime 2,
outputs at 1), so every output is dirty and all three edges are
wanted. -/
def restatChainStart : RState :=
  ⟨[(0, 2), (10, 1), (20, 1), (30, 1)], 3, [1, 2, 3], [10, 20, 30], 0⟩

/-! ## Theorems for claim C1 -/

/-- C1: when a restat edge finishes with every output mtime unchanged,
every wanted dependent that consumes one of its outputs and has no other
dirty input is removed from want (its command will not be executed); a
non-touching command leaves every output's re-stat unchanged; and on the
chain in -> out1 -> out2 -> out3 with the restat rule for out2 not
touching out2, a rebuild after touching `in` executes exactly 2 of the 3
commands and ends with nothing wanted. -/
theorem restat_cancels_dependents :
    (∀ (g : List REdge) (want dirtyAfter outs : List Nat) (d : Nat) (ed : REdge),
      d ∈ want → findEdge g d = some ed →
      (ed.ins.any fun n => outs.contains n) = true →
      (ed.ins.any fun n => dirtyAfter.contains n) = false →
      d ∉ cancelDependents g want dirtyAfter outs) ∧
    (∀ (g : List REdge) (s : RState) (e : REdge), e.touches = false →
      (e.outs.all fun n => mt (executeEdge g s e).fs n == mt s.fs n) = true) ∧
    ((runBuild restatChain 3 restatChainStart).commands = 2 ∧
      (runBuild restatChain 3 restatChainStart).want = []) := by
  refine ⟨fun g want dirtyAfter outs d ed hd hfind hdep hclean hmem => ?_,
          fun g s e htouch => ?_, ⟨rfl, rfl⟩⟩
  · rw [cancelDependents, List.mem_filter] at hmem
    rw [hfind] at hmem
    simp at hmem hdep hclean
    rcases hmem.2 with hall | hex
    · obtain ⟨x, hx, hxo⟩ := hdep
      exact (hall x hx) hxo
    · obtain ⟨x, hx, hxd⟩ := hex
      exact (hclean x hx) hxd
  · simp only [executeEdge, htouch, Bool.false_eq_true, if_false]
    simp [List.all_eq_true]

/-- Witness for C1: in the chain model, after the non-touching restat
edge 2 finishes, the dependent edge 3 is cancelled. -/
theorem restat_cancels_dependents_witness :
    3 ∉ cancelDependents restatChain [3] [30] [20] :=
  restat_cancels_dependents.1 restatChain [3] [30] [20] 3
    ⟨3, false, true, [20], [30]⟩ (List.mem_singleton_self 3) rfl rfl rfl

/-! ## Build-log mtime for restat edges (claim C7) -/

/-- The most recent mtime among a list of input mtimes. -/
def inputMostRecent (mtimes : List Int) : Int :=
  mtimes.foldl max 0

/-- Modelled from the spec: the mtime `Builder::FinishCommand` writes to
the build log (`build.cc` is not in the tree): for a restat edge whose
command succeeded without changing the output, "the build log records
the input-most-recent mtime, not the output mtime"; otherwise the
output's own post-run mtime is recorded. -/
def restatRecordMtime (restat outputUnchanged : Bool) (outputMtime inputMR : Int) : Int :=
  if restat && outputUnchanged then inputMR else outputMtime

/-! ## Theorems for claim C7 -/

/-- C7: a successful restat edge with unchanged output mtime logs the
input-most-recent mtime (so whenever that differs from the output's own
mtime, the output mtime is not what is recorded); and in the
RestatMissingInput scenario (inputs `in` at time 0 and two
depfile-discovered files at time 1, output untouched at 0), the recorded
value is 1; removing one depfile-referenced input makes the edge dirty
again, and the re-recorded value after the rebuild equals the original
recorded value. -/
theorem restat_log_mtime_spec :
    (∀ outputMtime inputMR : Int,
      restatRecordMtime true true outputMtime inputMR = inputMR) ∧
    (∀ outputMtime inputMR : Int, inputMR ≠ outputMtime →
      restatRecordMtime true true outputMtime inputMR ≠ outputMtime) ∧
    (restatRecordMtime true true 0 (inputMostRecent [0, 1, 1]) = 1 ∧
      outputDirty ⟨[⟨false, false, 0⟩], [⟨false, true, 1⟩, ⟨false, false, 1⟩], []⟩
        (some 0) true = true ∧
      restatRecordMtime true true 0 (inputMostRecent [0, 1]) =
        restatRecordMtime true true 0 (inputMostRecent [0, 1, 1])) := by
  refine ⟨fun o i => rfl, fun o i hne => ?_, by decide⟩
  simpa [restatRecordMtime] using hne

/-- Witness for C7: at output mtime 0 and input-most-recent 5 the
recorded value is not the output's own mtime. -/
theorem restat_log_mtime_spec_witness :
    restatRecordMtime true true 0 5 ≠ 0 :=
  restat_log_mtime_spec.2.1 0 5 (by decide)

end Splinter
